import Mathlib

/-!
# Verification of the VA combined rating engine

A shallow embedding of `va_combined_rating_detailed` from
`src/va_math_gui.py`, together with proofs of the specified properties.

The Python engine works on IEEE doubles; we embed the arithmetic over `ℚ`.
Python's built-in `round` performs round-half-to-even (banker's rounding),
which we model faithfully as `pyRound`.
-/

/-- Model of Python 3's built-in `round` on a real value: round to the
nearest integer, ties going to the even integer (round-half-to-even). -/
def pyRound (q : ℚ) : ℤ :=
  if q - (⌊q⌋ : ℚ) < 1/2 then ⌊q⌋
  else if 1/2 < q - (⌊q⌋ : ℚ) then ⌊q⌋ + 1
  else if ⌊q⌋ % 2 = 0 then ⌊q⌋ else ⌊q⌋ + 1

/-- One entry of the step trace: the dict appended to `steps` on each loop
iteration of `va_combined_rating_detailed`. -/
structure CombinationStep where
  rating : ℚ
  remaining_before : ℚ
  added : ℚ
  combined_before_round : ℚ
  combined_after_round : ℤ
deriving DecidableEq, Repr, Inhabited

/-- Descending insertion of an element into a list, used to model
`sorted(..., reverse=True)`. -/
def insertDesc (x : ℚ) : List ℚ → List ℚ
  | [] => [x]
  | y :: ys => if y ≤ x then x :: y :: ys else y :: insertDesc x ys

/-- Model of Python's `sorted(..., reverse=True)`: sort into descending
numeric order. -/
def sortDesc : List ℚ → List ℚ
  | [] => []
  | x :: xs => insertDesc x (sortDesc xs)

/-- The step trace built by the `for r in clean_ratings` loop: `combined`
is the running accumulator (an integer value after each `round`, threaded
back as a real number exactly as Python coerces the int into float
arithmetic). -/
def loopSteps : List ℚ → ℚ → List CombinationStep
  | [], _ => []
  | r :: rest, combined =>
    let remaining := 100 - combined
    let added := remaining * (r / 100)
    let before_round_combined := combined + added
    let after := pyRound before_round_combined
    { rating := r
      remaining_before := remaining
      added := added
      combined_before_round := before_round_combined
      combined_after_round := after } :: loopSteps rest (after : ℚ)

/-- The value of the accumulator `combined` when the loop finishes. -/
def loopCombined : List ℚ → ℚ → ℚ
  | [], combined => combined
  | r :: rest, combined =>
    let remaining := 100 - combined
    let added := remaining * (r / 100)
    let before_round_combined := combined + added
    loopCombined rest ((pyRound before_round_combined : ℤ) : ℚ)

/-- The domain filter `0 < float(r) <= 100` from the list comprehension. -/
def validRating (r : ℚ) : Bool :=
  decide (0 < r ∧ r ≤ 100)

/-- Shallow embedding of `va_combined_rating_detailed` from
`src/va_math_gui.py`: filter to `(0, 100]`, sort descending, iteratively
combine with per-step rounding, clamp to `[0, 100]`, and round to the
nearest multiple of 10 with 5 rounding up. -/
def va_combined_rating_detailed (ratings : List ℚ) : ℤ × List CombinationStep :=
  if ratings = [] then (0, [])
  else
    let clean_ratings := sortDesc (ratings.filter validRating)
    if clean_ratings = [] then (0, [])
    else
      let steps := loopSteps clean_ratings 0
      let combined := min 100 (max 0 (pyRound (loopCombined clean_ratings 0)))
      let remainder := combined % 10
      let final := if 5 ≤ remainder then combined + (10 - remainder)
                   else combined - remainder
      (final, steps)

/-- The final normalization applied after the loop (the clamp is applied
just before): `remainder = combined % 10`; a remainder of 5 or more rounds
up to the next multiple of 10, otherwise down. -/
def roundToTen (combined : ℤ) : ℤ :=
  if 5 ≤ combined % 10 then combined + (10 - combined % 10)
  else combined - combined % 10

/-! ## Basic properties of `pyRound` -/

theorem pyRound_intCast (n : ℤ) : pyRound (n : ℚ) = n := by
  simp [pyRound]

theorem pyRound_eq_floor_or (q : ℚ) :
    pyRound q = ⌊q⌋ ∨ pyRound q = ⌊q⌋ + 1 := by
  unfold pyRound
  split
  · exact Or.inl rfl
  · split
    · exact Or.inr rfl
    · split
      · exact Or.inl rfl
      · exact Or.inr rfl

theorem le_pyRound_of_le {k : ℤ} {q : ℚ} (h : (k : ℚ) ≤ q) : k ≤ pyRound q := by
  have hf : k ≤ ⌊q⌋ := Int.le_floor.mpr h
  rcases pyRound_eq_floor_or q with h1 | h1 <;> omega

theorem pyRound_le_of_le {q : ℚ} {n : ℤ} (h : q ≤ (n : ℚ)) : pyRound q ≤ n := by
  have hfn : ⌊q⌋ ≤ n := by
    have := Int.floor_le_floor h
    simpa using this
  unfold pyRound
  split
  · exact hfn
  · have hhalf : (⌊q⌋ : ℚ) + 1/2 ≤ q := by linarith [not_lt.mp (by assumption)]
    have hlt : ⌊q⌋ < n := by
      by_contra hcon
      have : n = ⌊q⌋ := le_antisymm (not_lt.mp hcon) hfn
      subst this
      have : (⌊q⌋ : ℚ) < q := by linarith
      have := Int.floor_le q
      linarith
    split
    · omega
    · split
      · omega
      · omega

theorem pyRound_tie {q : ℚ} (h : q - (⌊q⌋ : ℚ) = 1/2) :
    pyRound q = (if ⌊q⌋ % 2 = 0 then ⌊q⌋ else ⌊q⌋ + 1) := by
  unfold pyRound
  rw [h]
  norm_num

/-! ## Properties of the descending sort -/

theorem insertDesc_perm (x : ℚ) (l : List ℚ) : (insertDesc x l).Perm (x :: l) := by
  induction l with
  | nil => simp [insertDesc]
  | cons y ys ih =>
    unfold insertDesc
    split
    · exact List.Perm.refl _
    · exact (ih.cons y).trans (List.Perm.swap x y ys)

theorem insertDesc_sorted {x : ℚ} {l : List ℚ}
    (h : List.Sorted (· ≥ ·) l) : List.Sorted (· ≥ ·) (insertDesc x l) := by
  induction l with
  | nil => simp [insertDesc]
  | cons y ys ih =>
    unfold insertDesc
    split
    · rename_i hyx
      refine List.sorted_cons.mpr ⟨?_, h⟩
      intro b hb
      rcases List.mem_cons.mp hb with hb | hb
      · exact hb ▸ hyx
      · exact le_trans (List.rel_of_sorted_cons h b hb) hyx
    · rename_i hyx
      have hys := (List.sorted_cons.mp h).2
      refine List.sorted_cons.mpr ⟨?_, ih hys⟩
      intro b hb
      have := (insertDesc_perm x ys).mem_iff.mp hb
      rcases List.mem_cons.mp this with hb' | hb'
      · exact hb' ▸ le_of_lt (not_le.mp hyx)
      · exact List.rel_of_sorted_cons h b hb'

theorem sortDesc_perm (l : List ℚ) : (sortDesc l).Perm l := by
  induction l with
  | nil => exact List.Perm.refl _
  | cons x xs ih =>
    exact (insertDesc_perm x (sortDesc xs)).trans (ih.cons x)

theorem sortDesc_sorted (l : List ℚ) : List.Sorted (· ≥ ·) (sortDesc l) := by
  induction l with
  | nil => simp [sortDesc]
  | cons x xs ih => exact insertDesc_sorted ih

theorem sortDesc_eq_nil_iff {l : List ℚ} : sortDesc l = [] ↔ l = [] := by
  constructor
  · intro h
    have := (sortDesc_perm l).length_eq
    rw [h] at this
    exact List.length_eq_zero.mp this.symm
  · intro h
    subst h
    rfl

theorem sortDesc_congr_of_perm {l l' : List ℚ} (h : l.Perm l') :
    sortDesc l = sortDesc l' := by
  have hp : (sortDesc l).Perm (sortDesc l') :=
    ((sortDesc_perm l).trans h).trans (sortDesc_perm l').symm
  exact List.eq_of_perm_of_sorted hp (sortDesc_sorted l) (sortDesc_sorted l')

/-! ## Structural lemmas about the combination loop -/

theorem loopSteps_cons (r : ℚ) (rest : List ℚ) (c : ℚ) :
    loopSteps (r :: rest) c =
      { rating := r
        remaining_before := 100 - c
        added := (100 - c) * (r / 100)
        combined_before_round := c + (100 - c) * (r / 100)
        combined_after_round := pyRound (c + (100 - c) * (r / 100)) }
      :: loopSteps rest ((pyRound (c + (100 - c) * (r / 100)) : ℤ) : ℚ) := rfl

theorem loopCombined_cons (r : ℚ) (rest : List ℚ) (c : ℚ) :
    loopCombined (r :: rest) c =
      loopCombined rest ((pyRound (c + (100 - c) * (r / 100)) : ℤ) : ℚ) := rfl

theorem loopSteps_length (l : List ℚ) : ∀ c : ℚ, (loopSteps l c).length = l.length := by
  induction l with
  | nil => intro c; rfl
  | cons r rest ih => intro c; rw [loopSteps_cons]; simp [ih]

theorem loopSteps_map_rating (l : List ℚ) :
    ∀ c : ℚ, (loopSteps l c).map (fun s => s.rating) = l := by
  induction l with
  | nil => intro c; rfl
  | cons r rest ih => intro c; rw [loopSteps_cons]; simp [ih]

theorem loopSteps_after_eq_pyRound (l : List ℚ) : ∀ c : ℚ, ∀ s ∈ loopSteps l c,
    s.combined_after_round = pyRound s.combined_before_round := by
  induction l with
  | nil => intro c s hs; simp [loopSteps] at hs
  | cons r rest ih =>
    intro c s hs
    rw [loopSteps_cons] at hs
    rcases List.mem_cons.mp hs with hs | hs
    · subst hs; rfl
    · exact ih _ s hs

theorem step_before_bounds {c r : ℚ} (hc1 : c ≤ 100) (hr0 : 0 < r) (hr1 : r ≤ 100) :
    c ≤ c + (100 - c) * (r / 100) ∧ c + (100 - c) * (r / 100) ≤ 100 := by
  have h1 : (0 : ℚ) ≤ 100 - c := by linarith
  have h2 : (0 : ℚ) ≤ r / 100 := by positivity
  have h3 : r / 100 ≤ 1 := (div_le_one (by norm_num)).mpr hr1
  constructor
  · nlinarith
  · nlinarith

theorem loopSteps_after_bounds (l : List ℚ) : ∀ c : ℚ,
    (∀ r ∈ l, 0 < r ∧ r ≤ 100) → 0 ≤ c → c ≤ 100 →
    ∀ s ∈ loopSteps l c, 0 ≤ s.combined_after_round ∧ s.combined_after_round ≤ 100 := by
  induction l with
  | nil => intro c _ _ _ s hs; simp [loopSteps] at hs
  | cons r rest ih =>
    intro c hval hc0 hc1 s hs
    rw [loopSteps_cons] at hs
    obtain ⟨hr0, hr1⟩ := hval r (List.mem_cons_self r rest)
    obtain ⟨hb1, hb2⟩ := step_before_bounds hc1 hr0 hr1
    have hlow : (0 : ℤ) ≤ pyRound (c + (100 - c) * (r / 100)) :=
      le_pyRound_of_le (by push_cast; linarith)
    have hhigh : pyRound (c + (100 - c) * (r / 100)) ≤ 100 :=
      pyRound_le_of_le (by push_cast; linarith)
    rcases List.mem_cons.mp hs with hs | hs
    · subst hs; exact ⟨hlow, hhigh⟩
    · exact ih _ (fun x hx => hval x (List.mem_cons_of_mem _ hx))
        (by exact_mod_cast hlow) (by exact_mod_cast hhigh) s hs

theorem loopSteps_head_after_ge (l : List ℚ) (c : ℚ) (k : ℤ)
    (hval : ∀ r ∈ l, 0 < r ∧ r ≤ 100) (hc1 : c ≤ 100) (hk : (k : ℚ) ≤ c) :
    ∀ s ∈ (loopSteps l c).head?, k ≤ s.combined_after_round := by
  cases l with
  | nil => intro s hs; simp [loopSteps] at hs
  | cons r rest =>
    intro s hs
    rw [loopSteps_cons] at hs
    simp only [List.head?_cons, Option.mem_def, Option.some.injEq] at hs
    obtain ⟨hr0, hr1⟩ := hval r (List.mem_cons_self r rest)
    obtain ⟨hb1, _⟩ := step_before_bounds hc1 hr0 hr1
    subst hs
    exact le_pyRound_of_le (le_trans hk hb1)

theorem loopSteps_chain_after (l : List ℚ) : ∀ c : ℚ,
    (∀ r ∈ l, 0 < r ∧ r ≤ 100) → 0 ≤ c → c ≤ 100 →
    List.Chain' (fun s t => s.combined_after_round ≤ t.combined_after_round)
      (loopSteps l c) := by
  induction l with
  | nil => intro c _ _ _; simp [loopSteps]
  | cons r rest ih =>
    intro c hval hc0 hc1
    obtain ⟨hr0, hr1⟩ := hval r (List.mem_cons_self r rest)
    obtain ⟨hb1, hb2⟩ := step_before_bounds hc1 hr0 hr1
    have hlow : (0 : ℤ) ≤ pyRound (c + (100 - c) * (r / 100)) :=
      le_pyRound_of_le (by push_cast; linarith)
    have hhigh : pyRound (c + (100 - c) * (r / 100)) ≤ 100 :=
      pyRound_le_of_le (by push_cast; linarith)
    have hvrest : ∀ x ∈ rest, 0 < x ∧ x ≤ 100 :=
      fun x hx => hval x (List.mem_cons_of_mem _ hx)
    rw [loopSteps_cons, List.chain'_cons']
    constructor
    · intro t ht
      exact loopSteps_head_after_ge rest _ _ hvrest (by exact_mod_cast hhigh)
        (le_refl _) t ht
    · exact ih _ hvrest (by exact_mod_cast hlow) (by exact_mod_cast hhigh)

theorem loopCombined_eq_getLast (l : List ℚ) : ∀ (c : ℚ) (s : CombinationStep),
    (loopSteps l c).getLast? = some s →
    loopCombined l c = (s.combined_after_round : ℚ) := by
  induction l with
  | nil => intro c s h; simp [loopSteps] at h
  | cons r rest ih =>
    intro c s h
    rw [loopSteps_cons] at h
    rw [loopCombined_cons]
    cases rest with
    | nil =>
      simp only [loopSteps, List.getLast?_singleton, Option.some.injEq] at h
      rw [loopCombined, ← h]
    | cons r2 rest2 =>
      rw [loopSteps_cons, List.getLast?_cons_cons] at h
      exact ih _ s (by rw [loopSteps_cons]; exact h)

theorem loopSteps_head_remaining (l : List ℚ) (c : ℚ) :
    ∀ s ∈ (loopSteps l c).head?, s.remaining_before = 100 - c := by
  cases l with
  | nil => intro s hs; simp [loopSteps] at hs
  | cons r rest =>
    intro s hs
    rw [loopSteps_cons] at hs
    simp only [List.head?_cons, Option.mem_def, Option.some.injEq] at hs
    subst hs
    rfl

theorem loopSteps_get?_succ_remaining (l : List ℚ) : ∀ (c : ℚ) (i : ℕ)
    (s t : CombinationStep), (loopSteps l c).get? i = some s →
    (loopSteps l c).get? (i + 1) = some t →
    t.remaining_before = 100 - (s.combined_after_round : ℚ) := by
  induction l with
  | nil => intro c i s t hs ht; simp [loopSteps] at hs
  | cons r rest ih =>
    intro c i s t hs ht
    rw [loopSteps_cons] at hs ht
    cases i with
    | zero =>
      simp only [List.get?_cons_zero, Option.some.injEq] at hs
      simp only [List.get?_cons_succ] at ht
      have := loopSteps_head_remaining rest
        ((pyRound (c + (100 - c) * (r / 100)) : ℤ) : ℚ) t
        (by rw [← List.get?_zero]; exact ht)
      rw [this, ← hs]
    | succ j =>
      simp only [List.get?_cons_succ] at hs ht
      exact ih _ j s t hs ht

theorem loopSteps_saturated (l : List ℚ) : ∀ s ∈ loopSteps l 100,
    s.remaining_before = 0 ∧ s.added = 0 ∧ s.combined_after_round = 100 := by
  induction l with
  | nil => intro s hs; simp [loopSteps] at hs
  | cons r rest ih =>
    intro s hs
    rw [loopSteps_cons] at hs
    have hbefore : (100 : ℚ) + (100 - 100) * (r / 100) = ((100 : ℤ) : ℚ) := by
      push_cast; ring
    have h100 : pyRound ((100 : ℚ) + (100 - 100) * (r / 100)) = 100 := by
      rw [hbefore, pyRound_intCast]
    rcases List.mem_cons.mp hs with hs | hs
    · subst hs
      refine ⟨by norm_num, by norm_num, h100⟩
    · rw [show ((pyRound ((100 : ℚ) + (100 - 100) * (r / 100)) : ℤ) : ℚ) = (100 : ℚ) by
        rw [h100]; norm_num] at hs
      exact ih s hs

theorem loopCombined_saturated (l : List ℚ) : loopCombined l 100 = 100 := by
  induction l with
  | nil => rfl
  | cons r rest ih =>
    rw [loopCombined_cons]
    have hbefore : (100 : ℚ) + (100 - 100) * (r / 100) = ((100 : ℤ) : ℚ) := by
      push_cast; ring
    rw [show ((pyRound ((100 : ℚ) + (100 - 100) * (r / 100)) : ℤ) : ℚ) = (100 : ℚ) by
      rw [hbefore, pyRound_intCast]; norm_num]
    exact ih

/-! ## Unfolding the engine -/

theorem mem_clean_valid {ratings : List ℚ} {r : ℚ}
    (h : r ∈ sortDesc (ratings.filter validRating)) : 0 < r ∧ r ≤ 100 := by
  have hm := (sortDesc_perm _).mem_iff.mp h
  have := (List.mem_filter.mp hm).2
  simpa [validRating] using this

example : (va_combined_rating_detailed [50, 30, 10]).1 = 70 := by
  norm_num [va_combined_rating_detailed, sortDesc, insertDesc, loopSteps,
    loopCombined, validRating, pyRound, List.filter]
  simp

theorem va_spec (ratings : List ℚ) :
    va_combined_rating_detailed ratings =
      if sortDesc (ratings.filter validRating) = [] then (0, [])
      else
        (roundToTen (min 100 (max 0
           (pyRound (loopCombined (sortDesc (ratings.filter validRating)) 0)))),
         loopSteps (sortDesc (ratings.filter validRating)) 0) := by
  unfold va_combined_rating_detailed roundToTen
  by_cases h : ratings = []
  · subst h; simp [sortDesc, List.filter]
  · simp [h]

theorem va_fst (ratings : List ℚ)
    (h : sortDesc (ratings.filter validRating) ≠ []) :
    (va_combined_rating_detailed ratings).1 =
      roundToTen (min 100 (max 0
        (pyRound (loopCombined (sortDesc (ratings.filter validRating)) 0)))) := by
  rw [va_spec, if_neg h]

theorem va_snd (ratings : List ℚ)
    (h : sortDesc (ratings.filter validRating) ≠ []) :
    (va_combined_rating_detailed ratings).2 =
      loopSteps (sortDesc (ratings.filter validRating)) 0 := by
  rw [va_spec, if_neg h]

theorem va_snd_nil (ratings : List ℚ)
    (h : sortDesc (ratings.filter validRating) = []) :
    (va_combined_rating_detailed ratings).2 = [] := by
  rw [va_spec, if_pos h]

theorem roundToTen_bounds_dvd (c : ℤ) (h0 : 0 ≤ c) (h1 : c ≤ 100) :
    0 ≤ roundToTen c ∧ roundToTen c ≤ 100 ∧ (10 : ℤ) ∣ roundToTen c := by
  unfold roundToTen
  split <;> refine ⟨by omega, by omega, ?_⟩ <;>
    rw [Int.dvd_iff_emod_eq_zero] <;> omega

/-- Full evaluation of the engine on the reference example `[50, 30, 10]`:
steps are (50, 100, 50, 50, 50), (30, 50, 15, 65, 65) and
(10, 35, 3.5, 68.5, 68) — note the banker's rounding 68.5 → 68 — and the
final rating is 70. -/
theorem va_503010_eval : va_combined_rating_detailed [50, 30, 10] =
    (70, [{ rating := 50, remaining_before := 100, added := 50,
            combined_before_round := 50, combined_after_round := 50 },
          { rating := 30, remaining_before := 50, added := 15,
            combined_before_round := 65, combined_after_round := 65 },
          { rating := 10, remaining_before := 35, added := 7/2,
            combined_before_round := 137/2, combined_after_round := 68 }]) := by
  norm_num [va_combined_rating_detailed, sortDesc, insertDesc, loopSteps,
    loopCombined, validRating, pyRound, List.filter, CombinationStep.mk.injEq,
    Prod.ext_iff]
  simp

example : ((va_combined_rating_detailed [50, 30, 10]).2.map
    (fun s => s.combined_after_round)) = [50, 65, 68] := by
  norm_num [va_combined_rating_detailed, sortDesc, insertDesc, loopSteps,
    loopCombined, validRating, pyRound, List.filter]
  simp

example : va_combined_rating_detailed [] = (0, []) := by
  norm_num [va_combined_rating_detailed]

example : va_combined_rating_detailed [150, -5, 0] = (0, []) := by
  norm_num [va_combined_rating_detailed, sortDesc, insertDesc, loopSteps,
    loopCombined, validRating, List.filter]

example : (va_combined_rating_detailed [50]).2 =
    [{ rating := 50, remaining_before := 100, added := 50,
       combined_before_round := 50, combined_after_round := 50 }] := by
  norm_num [va_combined_rating_detailed, sortDesc, insertDesc, loopSteps,
    loopCombined, validRating, pyRound, List.filter, CombinationStep.mk.injEq]

/-! ## Claims -/

/-- C2: For every input sequence of rationals, the final rating returned
by the engine is an integer multiple of 10 lying in the closed interval
[0, 100]. -/
theorem va_final_multiple_of_ten_in_range (ratings : List ℚ) :
    0 ≤ (va_combined_rating_detailed ratings).1 ∧
    (va_combined_rating_detailed ratings).1 ≤ 100 ∧
    (10 : ℤ) ∣ (va_combined_rating_detailed ratings).1 := by
  rw [va_spec]
  split
  · norm_num
  · exact roundToTen_bounds_dvd _ (by omega) (by omega)

/-- C4: If the input sequence is empty, or every element lies outside the
interval (0, 100], the engine returns final rating 0 with an empty step
trace. -/
theorem va_all_invalid_returns_zero (ratings : List ℚ)
    (h : ∀ r ∈ ratings, ¬(0 < r ∧ r ≤ 100)) :
    va_combined_rating_detailed ratings = (0, []) := by
  have hf : ratings.filter validRating = [] := by
    rw [List.filter_eq_nil_iff]
    intro a ha
    simpa [validRating] using h a ha
  rw [va_spec, hf]
  simp [sortDesc]

theorem va_all_invalid_returns_zero_witness :
    (∀ r ∈ ([150, -5, 0] : List ℚ), ¬(0 < r ∧ r ≤ 100)) ∧
    va_combined_rating_detailed [150, -5, 0] = (0, []) ∧
    va_combined_rating_detailed [] = (0, []) := by
  have hinv : ∀ r ∈ ([150, -5, 0] : List ℚ), ¬(0 < r ∧ r ≤ 100) := by
    intro r hr
    rcases List.mem_cons.mp hr with h | hr
    · subst h; norm_num
    rcases List.mem_cons.mp hr with h | hr
    · subst h; norm_num
    rcases List.mem_cons.mp hr with h | hr
    · subst h; norm_num
    · simp at hr
  exact ⟨hinv, va_all_invalid_returns_zero [150, -5, 0] hinv,
    va_all_invalid_returns_zero [] (by intro r hr; simp at hr)⟩

/-- C6: The engine is permutation-invariant: permuting the input sequence
leaves both the final rating and the ordered step trace unchanged, because
the filtered values are sorted descending before combining. -/
theorem va_perm_invariant (l l' : List ℚ) (h : l.Perm l') :
    va_combined_rating_detailed l = va_combined_rating_detailed l' := by
  have hclean : sortDesc (l.filter validRating) = sortDesc (l'.filter validRating) :=
    sortDesc_congr_of_perm (h.filter validRating)
  rw [va_spec, va_spec, hclean]

theorem va_perm_invariant_witness :
    ([10, 50, 30] : List ℚ).Perm [50, 30, 10] ∧
    va_combined_rating_detailed [10, 50, 30] = va_combined_rating_detailed [50, 30, 10] := by
  have hp : ([10, 50, 30] : List ℚ).Perm [50, 30, 10] :=
    (List.Perm.swap 50 10 [30]).trans (List.Perm.cons 50 (List.Perm.swap 30 10 []))
  exact ⟨hp, va_perm_invariant _ _ hp⟩

/-- C7: The engine is total (never fails): elements with 0 < r ≤ 100 are
retained, all others are dropped, and the trace holds exactly one step per
retained element — the multiset of step ratings equals the multiset of
retained inputs. -/
theorem va_one_step_per_retained (ratings : List ℚ) :
    ((va_combined_rating_detailed ratings).2.map (fun s => s.rating)).Perm
      (ratings.filter (fun r => decide (0 < r ∧ r ≤ 100))) := by
  have hfil : ratings.filter (fun r => decide (0 < r ∧ r ≤ 100))
      = ratings.filter validRating := rfl
  rw [hfil]
  by_cases hc : sortDesc (ratings.filter validRating) = []
  · rw [va_snd_nil _ hc]
    rw [sortDesc_eq_nil_iff.mp hc]
    exact List.Perm.refl _
  · rw [va_snd _ hc, loopSteps_map_rating]
    exact sortDesc_perm _

/-- C8: Every step of the returned trace has its post-round running total
within [0, 100]; this is maintained by the running computation itself, not
established by the final clamp. -/
theorem va_step_after_round_bounds (ratings : List ℚ) (s : CombinationStep)
    (h : s ∈ (va_combined_rating_detailed ratings).2) :
    0 ≤ s.combined_after_round ∧ s.combined_after_round ≤ 100 := by
  by_cases hc : sortDesc (ratings.filter validRating) = []
  · rw [va_snd_nil _ hc] at h
    simp at h
  · rw [va_snd _ hc] at h
    exact loopSteps_after_bounds _ 0 (fun r hr => mem_clean_valid hr)
      (by norm_num) (by norm_num) s h

theorem va_step_after_round_bounds_witness :
    ({ rating := 30, remaining_before := 50, added := 15,
       combined_before_round := 65, combined_after_round := 65 } : CombinationStep)
      ∈ (va_combined_rating_detailed [50, 30, 10]).2 ∧
    (0 : ℤ) ≤ 65 ∧ (65 : ℤ) ≤ 100 := by
  have hm : ({ rating := 30, remaining_before := 50, added := 15,
               combined_before_round := 65, combined_after_round := 65 } : CombinationStep)
      ∈ (va_combined_rating_detailed [50, 30, 10]).2 := by
    rw [va_503010_eval]
    simp
  exact ⟨hm, va_step_after_round_bounds [50, 30, 10] _ hm⟩

/-- C5: The first step of every trace has remaining_before = 100, and each
subsequent step's remaining_before equals 100 minus the previous step's
combined_after_round. -/
theorem va_remaining_recurrence (ratings : List ℚ) :
    (∀ s, (va_combined_rating_detailed ratings).2.head? = some s →
       s.remaining_before = 100) ∧
    (∀ (i : ℕ) (s t : CombinationStep),
       (va_combined_rating_detailed ratings).2.get? i = some s →
       (va_combined_rating_detailed ratings).2.get? (i + 1) = some t →
       t.remaining_before = 100 - (s.combined_after_round : ℚ)) := by
  by_cases hc : sortDesc (ratings.filter validRating) = []
  · rw [va_snd_nil _ hc]
    constructor
    · intro s hs; simp at hs
    · intro i s t hs ht; simp at hs
  · rw [va_snd _ hc]
    constructor
    · intro s hs
      have := loopSteps_head_remaining _ 0 s hs
      simpa using this
    · intro i s t hs ht
      exact loopSteps_get?_succ_remaining _ 0 i s t hs ht

theorem va_remaining_recurrence_witness :
    ((va_combined_rating_detailed [50, 30, 10]).2.head? =
       some { rating := 50, remaining_before := 100, added := 50,
              combined_before_round := 50, combined_after_round := 50 }) ∧
    ({ rating := 50, remaining_before := 100, added := 50,
       combined_before_round := 50, combined_after_round := 50 } : CombinationStep).remaining_before = 100 ∧
    ((va_combined_rating_detailed [50, 30, 10]).2.get? 1 =
       some { rating := 30, remaining_before := 50, added := 15,
              combined_before_round := 65, combined_after_round := 65 }) ∧
    ({ rating := 30, remaining_before := 50, added := 15,
       combined_before_round := 65, combined_after_round := 65 } : CombinationStep).remaining_before
      = 100 - (({ rating := 50, remaining_before := 100, added := 50,
                  combined_before_round := 50, combined_after_round := 50 } : CombinationStep).combined_after_round : ℚ) := by
  have h0 : (va_combined_rating_detailed [50, 30, 10]).2.head? =
      some { rating := 50, remaining_before := 100, added := 50,
             combined_before_round := 50, combined_after_round := 50 } := by
    rw [va_503010_eval]
    rfl
  have hs : (va_combined_rating_detailed [50, 30, 10]).2.get? 0 =
      some { rating := 50, remaining_before := 100, added := 50,
             combined_before_round := 50, combined_after_round := 50 } := by
    rw [va_503010_eval]
    rfl
  have ht : (va_combined_rating_detailed [50, 30, 10]).2.get? 1 =
      some { rating := 30, remaining_before := 50, added := 15,
             combined_before_round := 65, combined_after_round := 65 } := by
    rw [va_503010_eval]
    rfl
  exact ⟨h0, (va_remaining_recurrence [50, 30, 10]).1 _ h0, ht,
    (va_remaining_recurrence [50, 30, 10]).2 0 _ _ hs ht⟩

/-- C3: After the loop the engine clamps the accumulated total — the last
step's combined_after_round — to [0, 100] and then rounds it to a multiple
of 10: remainder = combined mod 10; remainder ≥ 5 rounds up, else down. -/
theorem va_final_from_trace_clamp_round (ratings : List ℚ) (s : CombinationStep)
    (h : (va_combined_rating_detailed ratings).2.getLast? = some s) :
    (va_combined_rating_detailed ratings).1 =
      roundToTen (min 100 (max 0 s.combined_after_round)) := by
  by_cases hc : sortDesc (ratings.filter validRating) = []
  · rw [va_snd_nil _ hc] at h
    simp at h
  · rw [va_snd _ hc] at h
    rw [va_fst _ hc, loopCombined_eq_getLast _ 0 s h, pyRound_intCast]

theorem va_final_from_trace_clamp_round_witness :
    ((va_combined_rating_detailed [50, 30, 10]).2.getLast? =
       some { rating := 10, remaining_before := 35, added := 7/2,
              combined_before_round := 137/2, combined_after_round := 68 }) ∧
    (va_combined_rating_detailed [50, 30, 10]).1 =
      roundToTen (min 100 (max 0 68)) := by
  have hl : (va_combined_rating_detailed [50, 30, 10]).2.getLast? =
      some { rating := 10, remaining_before := 35, added := 7/2,
             combined_before_round := 137/2, combined_after_round := 68 } := by
    rw [va_503010_eval]
    rfl
  exact ⟨hl, va_final_from_trace_clamp_round [50, 30, 10] _ hl⟩

/-- C9: The post-round running totals along the trace are non-decreasing,
and equivalently the remaining_before values are non-increasing. -/
theorem va_after_round_monotone (ratings : List ℚ) (i : ℕ) (s t : CombinationStep)
    (hs : (va_combined_rating_detailed ratings).2.get? i = some s)
    (ht : (va_combined_rating_detailed ratings).2.get? (i + 1) = some t) :
    s.combined_after_round ≤ t.combined_after_round ∧
    t.remaining_before ≤ s.remaining_before := by
  by_cases hc : sortDesc (ratings.filter validRating) = []
  · rw [va_snd_nil _ hc] at hs
    simp at hs
  · rw [va_snd _ hc] at hs ht
    have hval : ∀ r ∈ sortDesc (ratings.filter validRating), 0 < r ∧ r ≤ 100 :=
      fun r hr => mem_clean_valid hr
    have hchain := loopSteps_chain_after _ 0 hval (by norm_num) (by norm_num)
    obtain ⟨hlt, hgt⟩ := List.get?_eq_some.mp ht
    obtain ⟨hls, hgs⟩ := List.get?_eq_some.mp hs
    have hmono : s.combined_after_round ≤ t.combined_after_round := by
      have hcg := List.chain'_iff_get.mp hchain i (by omega)
      rw [← hgs, ← hgt]
      exact hcg
    refine ⟨hmono, ?_⟩
    have ht_rem : t.remaining_before = 100 - (s.combined_after_round : ℚ) :=
      loopSteps_get?_succ_remaining _ 0 i s t hs ht
    cases i with
    | zero =>
      have h0 : (loopSteps (sortDesc (ratings.filter validRating)) 0).head? = some s := by
        rw [← List.get?_zero]
        exact hs
      have hs_rem : s.remaining_before = 100 := by
        have := loopSteps_head_remaining _ 0 s h0
        simpa using this
      have hb := (loopSteps_after_bounds _ 0 hval (by norm_num) (by norm_num) s
        (List.get?_mem hs)).1
      have hcast : (0 : ℚ) ≤ (s.combined_after_round : ℚ) := by exact_mod_cast hb
      rw [ht_rem, hs_rem]
      linarith
    | succ j =>
      have hjlt : j < (loopSteps (sortDesc (ratings.filter validRating)) 0).length := by
        omega
      have hu : (loopSteps (sortDesc (ratings.filter validRating)) 0).get? j =
          some ((loopSteps (sortDesc (ratings.filter validRating)) 0).get ⟨j, hjlt⟩) :=
        List.get?_eq_some.mpr ⟨hjlt, rfl⟩
      have hs_rem : s.remaining_before =
          100 - (((loopSteps (sortDesc (ratings.filter validRating)) 0).get
            ⟨j, hjlt⟩).combined_after_round : ℚ) :=
        loopSteps_get?_succ_remaining _ 0 j _ s hu hs
      have humono : ((loopSteps (sortDesc (ratings.filter validRating)) 0).get
          ⟨j, hjlt⟩).combined_after_round ≤ s.combined_after_round := by
        have hcg := List.chain'_iff_get.mp hchain j (by omega)
        rw [← hgs]
        exact hcg
      have hcast : (((loopSteps (sortDesc (ratings.filter validRating)) 0).get
          ⟨j, hjlt⟩).combined_after_round : ℚ) ≤ (s.combined_after_round : ℚ) := by
        exact_mod_cast humono
      rw [ht_rem, hs_rem]
      linarith

theorem va_after_round_monotone_witness :
    ((va_combined_rating_detailed [50, 30, 10]).2.get? 0 =
       some { rating := 50, remaining_before := 100, added := 50,
              combined_before_round := 50, combined_after_round := 50 }) ∧
    ((va_combined_rating_detailed [50, 30, 10]).2.get? 1 =
       some { rating := 30, remaining_before := 50, added := 15,
              combined_before_round := 65, combined_after_round := 65 }) ∧
    (({ rating := 50, remaining_before := 100, added := 50,
        combined_before_round := 50, combined_after_round := 50 } : CombinationStep).combined_after_round
       ≤ ({ rating := 30, remaining_before := 50, added := 15,
            combined_before_round := 65, combined_after_round := 65 } : CombinationStep).combined_after_round ∧
     ({ rating := 30, remaining_before := 50, added := 15,
        combined_before_round := 65, combined_after_round := 65 } : CombinationStep).remaining_before
       ≤ ({ rating := 50, remaining_before := 100, added := 50,
            combined_before_round := 50, combined_after_round := 50 } : CombinationStep).remaining_before) := by
  have h1 : (va_combined_rating_detailed [50, 30, 10]).2.get? 0 =
      some { rating := 50, remaining_before := 100, added := 50,
             combined_before_round := 50, combined_after_round := 50 } := by
    rw [va_503010_eval]
    rfl
  have h2 : (va_combined_rating_detailed [50, 30, 10]).2.get? 1 =
      some { rating := 30, remaining_before := 50, added := 15,
             combined_before_round := 65, combined_after_round := 65 } := by
    rw [va_503010_eval]
    rfl
  exact ⟨h1, h2, va_after_round_monotone [50, 30, 10] 0 _ _ h1 h2⟩

/-- C10: If some input element equals exactly 100, the final rating is 100
and every step after the first (the step that consumes the 100 rating,
placed first by the descending sort) has remaining_before = 0 and
added = 0. -/
theorem va_with_100_rating (ratings : List ℚ) (h : (100 : ℚ) ∈ ratings) :
    (va_combined_rating_detailed ratings).1 = 100 ∧
    ∀ s ∈ (va_combined_rating_detailed ratings).2.tail,
      s.remaining_before = 0 ∧ s.added = 0 := by
  have h100 : (100 : ℚ) ∈ sortDesc (ratings.filter validRating) :=
    (sortDesc_perm _).mem_iff.mpr (List.mem_filter.mpr ⟨h, by simp [validRating]⟩)
  have hc : sortDesc (ratings.filter validRating) ≠ [] := by
    intro hnil
    rw [hnil] at h100
    simp at h100
  obtain ⟨hd, tl, hcons⟩ := List.exists_cons_of_ne_nil hc
  have hd100 : hd = 100 := by
    have hsorted := sortDesc_sorted (ratings.filter validRating)
    rw [hcons] at hsorted h100
    rcases List.mem_cons.mp h100 with h1 | h1
    · exact h1.symm
    · have hge : hd ≥ 100 := List.rel_of_sorted_cons hsorted _ h1
      have hmemhd : hd ∈ sortDesc (ratings.filter validRating) := by
        rw [hcons]
        exact List.mem_cons_self _ _
      have hle : hd ≤ 100 := (mem_clean_valid hmemhd).2
      linarith
  subst hd100
  have hafter : ((pyRound ((0 : ℚ) + (100 - 0) * (100 / 100)) : ℤ) : ℚ) = (100 : ℚ) := by
    rw [show ((0 : ℚ) + (100 - 0) * (100 / 100)) = ((100 : ℤ) : ℚ) by norm_num,
      pyRound_intCast]
    norm_num
  constructor
  · rw [va_fst _ hc, hcons]
    have hLC : loopCombined ((100 : ℚ) :: tl) 0 = 100 := by
      rw [loopCombined_cons, hafter]
      exact loopCombined_saturated tl
    rw [hLC]
    rw [show pyRound (100 : ℚ) = 100 by
      rw [show (100 : ℚ) = ((100 : ℤ) : ℚ) by norm_num, pyRound_intCast]]
    norm_num [roundToTen]
  · intro s hs
    rw [va_snd _ hc, hcons, loopSteps_cons] at hs
    simp only [List.tail_cons] at hs
    rw [hafter] at hs
    exact ⟨(loopSteps_saturated tl s hs).1, (loopSteps_saturated tl s hs).2.1⟩

theorem va_with_100_rating_witness :
    ((100 : ℚ) ∈ ([100, 50] : List ℚ)) ∧
    (va_combined_rating_detailed [100, 50]).1 = 100 := by
  have hm : (100 : ℚ) ∈ ([100, 50] : List ℚ) := List.mem_cons_self _ _
  exact ⟨hm, (va_with_100_rating [100, 50] hm).1⟩

/-- C1 counterexample: the per-step rounding is not round-half-up. For
combine([50, 30, 10]) the third step has combined_before_round = 68.5
(fractional part exactly 0.5), yet its combined_after_round is 68, not 69
— Python's `round` sends 68.5 to the even integer 68. -/
theorem va_step_rounding_not_half_up :
    (((va_combined_rating_detailed [50, 30, 10]).2.getD 2 default).combined_before_round
       - ((⌊((va_combined_rating_detailed [50, 30, 10]).2.getD 2 default).combined_before_round⌋ : ℤ) : ℚ)
       = 1/2) ∧
    ((va_combined_rating_detailed [50, 30, 10]).2.getD 2 default).combined_after_round = 68 ∧
    ¬ ((va_combined_rating_detailed [50, 30, 10]).2.getD 2 default).combined_after_round = 69 := by
  rw [va_503010_eval]
  norm_num

/-- C1 (amended): the per-step rounding is round-half-to-even (Python's
built-in `round`): whenever a step's combined_before_round has fractional
part exactly 0.5, its combined_after_round is the even one of the two
neighbouring integers. For combine([50, 30, 10]) the third step has
before_round = 68.5 and combined_after_round = 68; the final rating is
still 70. -/
theorem va_step_rounding_half_to_even :
    (∀ (ratings : List ℚ) (s : CombinationStep),
       s ∈ (va_combined_rating_detailed ratings).2 →
       s.combined_before_round - ((⌊s.combined_before_round⌋ : ℤ) : ℚ) = 1/2 →
       s.combined_after_round =
         (if ⌊s.combined_before_round⌋ % 2 = 0 then ⌊s.combined_before_round⌋
          else ⌊s.combined_before_round⌋ + 1)) ∧
    ((va_combined_rating_detailed [50, 30, 10]).2.getD 2 default).combined_before_round = 137/2 ∧
    ((va_combined_rating_detailed [50, 30, 10]).2.getD 2 default).combined_after_round = 68 ∧
    (va_combined_rating_detailed [50, 30, 10]).1 = 70 := by
  refine ⟨?_, ?_, ?_, ?_⟩
  · intro ratings s hmem htie
    by_cases hc : sortDesc (ratings.filter validRating) = []
    · rw [va_snd_nil _ hc] at hmem
      simp at hmem
    · rw [va_snd _ hc] at hmem
      rw [loopSteps_after_eq_pyRound _ 0 s hmem, pyRound_tie htie]
  · rw [va_503010_eval]
    rfl
  · rw [va_503010_eval]
    rfl
  · rw [va_503010_eval]

theorem va_step_rounding_half_to_even_witness :
    (({ rating := 10, remaining_before := 35, added := 7/2,
        combined_before_round := 137/2, combined_after_round := 68 } : CombinationStep)
       ∈ (va_combined_rating_detailed [50, 30, 10]).2) ∧
    (({ rating := 10, remaining_before := 35, added := 7/2,
        combined_before_round := 137/2, combined_after_round := 68 } : CombinationStep).combined_before_round
       - ((⌊({ rating := 10, remaining_before := 35, added := 7/2,
               combined_before_round := 137/2, combined_after_round := 68 } : CombinationStep).combined_before_round⌋ : ℤ) : ℚ)
       = 1/2) ∧
    ({ rating := 10, remaining_before := 35, added := 7/2,
       combined_before_round := 137/2, combined_after_round := 68 } : CombinationStep).combined_after_round = 68 := by
  have hmem : ({ rating := 10, remaining_before := 35, added := 7/2,
                 combined_before_round := 137/2, combined_after_round := 68 } : CombinationStep)
      ∈ (va_combined_rating_detailed [50, 30, 10]).2 := by
    rw [va_503010_eval]
    simp
  have htie : ({ rating := 10, remaining_before := 35, added := 7/2,
                 combined_before_round := 137/2, combined_after_round := 68 } : CombinationStep).combined_before_round
      - ((⌊({ rating := 10, remaining_before := 35, added := 7/2,
              combined_before_round := 137/2, combined_after_round := 68 } : CombinationStep).combined_before_round⌋ : ℤ) : ℚ)
      = 1/2 := by
    norm_num
  have h := va_step_rounding_half_to_even.1 [50, 30, 10] _ hmem htie
  refine ⟨hmem, htie, ?_⟩
  rw [h]
  norm_num
